import Mathlib

/-!
Verification of the flow-equation integrator of `tutorial/build_unitary.ipynb`.

The notebook's `flow` function performs Wegner-style flow-equation
diagonalization of a dense symmetric matrix by forward-Euler integration.
This file gives a shallow embedding of that function: matrices over `ℚ`
stand for the floating-point `numpy` arrays (the properties proved here are
exact-arithmetic properties of the algorithm), the `for` loop is an iterated
state transformer, and the `return H2, Vmax, U` statement is `Option`-valued:
the local variable `Vmax` is assigned only inside the loop body, so a call
with `steps = 0` reaches the `return` with `Vmax` unbound and raises
`UnboundLocalError`; that outcome is modelled as `none`.
-/

open Matrix

/-- Square rational matrices of size `n`, standing for the dense `numpy`
arrays handled by the notebook. -/
abbrev Mat (n : ℕ) := Matrix (Fin n) (Fin n) ℚ

/-- The diagonal part `H0 = np.diag(np.diag(H2))`. -/
def diagPart {n : ℕ} (H : Mat n) : Mat n := Matrix.diagonal (fun i => H i i)

/-- The off-diagonal remainder `V = H2 - H0`. -/
def offdiagPart {n : ℕ} (H : Mat n) : Mat n := H - diagPart H

/-- The diagnostic `Vmax = np.max(np.abs(V.reshape(n**2)))`: the largest
absolute value of an entry of `V`.  (`fold max 0` agrees with `np.max` for
`n ≥ 1` because every `|entry|` is nonnegative; for `n = 0` `np.max` raises
on the empty array.) -/
def vmaxOf {n : ℕ} (H : Mat n) : ℚ :=
  Finset.univ.fold max 0 (fun p : Fin n × Fin n => |offdiagPart H p.1 p.2|)

/-- The generator `eta = H0@V - V@H0`. -/
def eta {n : ℕ} (H : Mat n) : Mat n :=
  diagPart H * offdiagPart H - offdiagPart H * diagPart H

/-- The update of the working Hamiltonian done by one loop iteration:
`dH = eta@H2 - H2@eta` followed by `H2 += dl*dH`. -/
def flowStep {n : ℕ} (dl : ℚ) (H : Mat n) : Mat n :=
  H + dl • (eta H * H - H * eta H)

/-- The working Hamiltonian `H2` after `q` loop iterations. -/
def flowH {n : ℕ} (dl : ℚ) (q : ℕ) (H : Mat n) : Mat n := (flowStep dl)^[q] H

/-- The local state of `flow`'s loop: the working copy `H2`, the accumulated
unitary `U`, and the binding of the local variable `Vmax` (`none` while the
loop body has not yet run). -/
structure FlowState (n : ℕ) where
  H2 : Mat n
  U : Mat n
  Vmax : Option ℚ

/-- One iteration of `for q in range(steps)`: `Vmax` and `eta` are computed
from the current `H2`, `U` is premultiplied by `np.identity(n) + dl*eta`, and
then `H2` is updated in place. -/
def flowIter {n : ℕ} (dl : ℚ) (s : FlowState n) : FlowState n :=
  { H2 := flowStep dl s.H2
    U := (1 + dl • eta s.H2) * s.U
    Vmax := some (vmaxOf s.H2) }

/-- The state on entry to the loop: `H2 = copy.deepcopy(H)`,
`U = np.identity(n)`, and `Vmax` not yet assigned. -/
def flowInit {n : ℕ} (H : Mat n) : FlowState n :=
  { H2 := H, U := 1, Vmax := none }

/-- The function `flow(H, dl, steps)`.  It returns `some (H2, Vmax, U)` from
the final loop state; `none` models the `UnboundLocalError` raised by
`return H2, Vmax, U` when the loop never ran (`steps = 0`), since the local
`Vmax` was then never assigned. -/
def flow {n : ℕ} (H : Mat n) (dl : ℚ) (steps : ℕ) : Option (Mat n × ℚ × Mat n) :=
  ((flowIter dl)^[steps] (flowInit H)).Vmax.map
    (fun v => (((flowIter dl)^[steps] (flowInit H)).H2, v,
      ((flowIter dl)^[steps] (flowInit H)).U))

/-- Stated from the spec's words (generator construction): decompose `H` into
diagonal part `H0` and off-diagonal remainder `V = H - H0`, and form the
generator `H0·V - V·H0`.  Written from the spec, to be compared with the
code's `eta`. -/
def specGenerator {n : ℕ} (H : Mat n) : Mat n :=
  let H0 : Mat n := Matrix.diagonal (fun i => H i i)
  let V : Mat n := H - H0
  H0 * V - V * H0

/-- Stated from the spec's words (flow integrator): one forward-Euler update
of the Hamiltonian, `H + dl · (ηH − Hη)`. -/
def specStepH {n : ℕ} (dl : ℚ) (H : Mat n) : Mat n :=
  H + dl • (specGenerator H * H - H * specGenerator H)

/-- Stated from the spec's words (unitary accumulator): one update of the
accumulated unitary, `(I + dl·η) · U`. -/
def specStepU {n : ℕ} (dl : ℚ) (H U : Mat n) : Mat n :=
  (1 + dl • specGenerator H) * U

/-- A heap of allocated dense arrays; a reference is an index into the list.
Used to state the frame property of `flow` over Python's aliasing
semantics. -/
abbrev ArrayHeap (n : ℕ) := List (Mat n)

/-- One loop iteration as it acts on the heap: the only in-place array write
in the loop body is `H2 += dl*dH`, at the address `j` of the working copy;
`H0`, `V`, `eta` and `dH` are freshly allocated temporaries and `U` is
rebound to a fresh array, so no other heap cell is written. -/
def stepOnHeap {n : ℕ} (dl : ℚ) (j : ℕ) (hp : ArrayHeap n) : ArrayHeap n :=
  match hp[j]? with
  | some M => hp.set j (flowStep dl M)
  | none => hp

/-- The function `flow` acting on the heap: `H2 = copy.deepcopy(H)` allocates
a fresh cell holding a copy of the argument cell `hp[r]`, and every loop
iteration writes only that fresh cell. -/
def flowOnHeap {n : ℕ} (dl : ℚ) (steps : ℕ) (hp : ArrayHeap n) (r : ℕ) :
    ArrayHeap n :=
  match hp[r]? with
  | some H => (stepOnHeap dl hp.length)^[steps] (hp ++ [H])
  | none => hp

/-- Entry formula for the diagonal part. -/
lemma diagPart_apply {n : ℕ} (H : Mat n) (i j : Fin n) :
    diagPart H i j = if i = j then H i i else 0 :=
  Matrix.diagonal_apply _ _ _

/-- Entry formula for the off-diagonal remainder. -/
lemma offdiagPart_apply {n : ℕ} (H : Mat n) (i j : Fin n) :
    offdiagPart H i j = if i = j then 0 else H i j := by
  unfold offdiagPart
  rw [Matrix.sub_apply, diagPart_apply]
  by_cases hij : i = j
  · subst hij; simp
  · simp [hij]

/-- The fold computing `vmaxOf` is bounded by any bound on the entries. -/
lemma vmaxOf_le {n : ℕ} (H : Mat n) (c : ℚ) (hc : 0 ≤ c)
    (hall : ∀ i j, |offdiagPart H i j| ≤ c) : vmaxOf H ≤ c :=
  (Finset.fold_max_le c).mpr ⟨hc, fun p _ => hall p.1 p.2⟩

/-- Every entry of the off-diagonal part bounds `vmaxOf` from below. -/
lemma le_vmaxOf {n : ℕ} (H : Mat n) (i j : Fin n) :
    |offdiagPart H i j| ≤ vmaxOf H :=
  (Finset.le_fold_max _).mpr (Or.inr ⟨(i, j), Finset.mem_univ _, le_rfl⟩)

/-- Exact value of `vmaxOf` from a witness entry and a global bound. -/
lemma vmaxOf_eq {n : ℕ} (H : Mat n) (c : ℚ) (i j : Fin n) (hc : 0 ≤ c)
    (hij : |offdiagPart H i j| = c) (hall : ∀ a b, |offdiagPart H a b| ≤ c) :
    vmaxOf H = c :=
  le_antisymm (vmaxOf_le H c hc hall) (hij ▸ le_vmaxOf H i j)

/-- The diagonal part is symmetric. -/
lemma diagPart_transpose {n : ℕ} (H : Mat n) : (diagPart H)ᵀ = diagPart H :=
  Matrix.diagonal_transpose _

/-- The off-diagonal part of a symmetric matrix is symmetric. -/
lemma offdiagPart_transpose {n : ℕ} {H : Mat n} (h : Hᵀ = H) :
    (offdiagPart H)ᵀ = offdiagPart H := by
  unfold offdiagPart
  rw [transpose_sub, h, diagPart_transpose]

/-- The generator of a symmetric matrix is anti-symmetric. -/
lemma eta_transpose {n : ℕ} {H : Mat n} (h : Hᵀ = H) : (eta H)ᵀ = -eta H := by
  unfold eta
  rw [transpose_sub, transpose_mul, transpose_mul, diagPart_transpose,
    offdiagPart_transpose h]
  exact (neg_sub _ _).symm

/-- One flow step preserves symmetry. -/
lemma flowStep_transpose {n : ℕ} (dl : ℚ) {H : Mat n} (h : Hᵀ = H) :
    (flowStep dl H)ᵀ = flowStep dl H := by
  unfold flowStep
  rw [transpose_add, transpose_smul, transpose_sub, transpose_mul,
    transpose_mul, eta_transpose h, h, mul_neg, neg_mul, sub_neg_eq_add,
    neg_add_eq_sub]

/-- The iterated flow preserves symmetry. -/
lemma flowH_transpose {n : ℕ} (dl : ℚ) {H : Mat n} (h : Hᵀ = H) :
    ∀ q : ℕ, (flowH dl q H)ᵀ = flowH dl q H := by
  intro q
  induction q with
  | zero => exact h
  | succ q ih =>
    rw [flowH, Function.iterate_succ_apply']
    exact flowStep_transpose dl ih

/-- Unfolding of the iterated flow at a successor step. -/
lemma flowH_succ {n : ℕ} (dl : ℚ) (q : ℕ) (H : Mat n) :
    flowH dl (q + 1) H = flowStep dl (flowH dl q H) :=
  Function.iterate_succ_apply' _ _ _

/-- One flow step preserves the trace. -/
lemma trace_flowStep {n : ℕ} (dl : ℚ) (H : Mat n) :
    (flowStep dl H).trace = H.trace := by
  unfold flowStep
  rw [trace_add, trace_smul, trace_sub, trace_mul_comm]
  simp

/-- The `H2` component of the iterated loop state is the iterated step. -/
lemma flowIter_iterate_H2 {n : ℕ} (dl : ℚ) (q : ℕ) (s : FlowState n) :
    ((flowIter dl)^[q] s).H2 = (flowStep dl)^[q] s.H2 := by
  induction q generalizing s with
  | zero => rfl
  | succ q ih =>
    rw [Function.iterate_succ_apply, Function.iterate_succ_apply]
    exact ih (flowIter dl s)

/-- Value of `flow` for a positive number of steps: the flowed Hamiltonian,
the off-diagonal diagnostic of the state at the start of the final
iteration, and the accumulated unitary. -/
lemma flow_succ {n : ℕ} (H : Mat n) (dl : ℚ) (q : ℕ) :
    flow H dl (q + 1) = some (flowH dl (q + 1) H, vmaxOf (flowH dl q H),
      ((flowIter dl)^[q + 1] (flowInit H)).U) := by
  have hH2 : ((flowIter dl)^[q] (flowInit H)).H2 = flowH dl q H :=
    flowIter_iterate_H2 dl q (flowInit H)
  unfold flow
  rw [Function.iterate_succ_apply']
  simp only [flowIter, hH2]
  rw [← flowH_succ]
  rfl

/-- A matrix with vanishing off-diagonal entries equals its diagonal part. -/
lemma diagPart_of_diag {n : ℕ} {H : Mat n} (hd : ∀ i j, i ≠ j → H i j = 0) :
    diagPart H = H := by
  ext i j
  rw [diagPart_apply]
  by_cases hij : i = j
  · subst hij; simp
  · simp [hij, (hd i j hij).symm]

/-- A diagonal matrix has zero off-diagonal remainder. -/
lemma offdiagPart_of_diag {n : ℕ} {H : Mat n} (hd : ∀ i j, i ≠ j → H i j = 0) :
    offdiagPart H = 0 := by
  unfold offdiagPart
  rw [diagPart_of_diag hd, sub_self]

/-- The diagnostic vanishes on a diagonal matrix. -/
lemma vmaxOf_of_diag {n : ℕ} {H : Mat n} (hd : ∀ i j, i ≠ j → H i j = 0) :
    vmaxOf H = 0 :=
  le_antisymm
    (vmaxOf_le H 0 le_rfl (fun i j => by rw [offdiagPart_of_diag hd]; simp))
    ((Finset.le_fold_max _).mpr (Or.inl le_rfl))

/-- The generator vanishes on a diagonal matrix. -/
lemma eta_of_diag {n : ℕ} {H : Mat n} (hd : ∀ i j, i ≠ j → H i j = 0) :
    eta H = 0 := by
  unfold eta
  rw [offdiagPart_of_diag hd, mul_zero, zero_mul, sub_self]

/-- A diagonal matrix is a fixed point of the flow step. -/
lemma flowStep_of_diag {n : ℕ} {H : Mat n} (dl : ℚ)
    (hd : ∀ i j, i ≠ j → H i j = 0) : flowStep dl H = H := by
  unfold flowStep
  rw [eta_of_diag hd, mul_zero, zero_mul, sub_self, smul_zero, add_zero]

/-- A diagonal matrix is a fixed point of the iterated flow. -/
lemma flowH_of_diag {n : ℕ} {H : Mat n} (dl : ℚ)
    (hd : ∀ i j, i ≠ j → H i j = 0) (q : ℕ) : flowH dl q H = H := by
  induction q with
  | zero => rfl
  | succ q ih => rw [flowH_succ, ih, flowStep_of_diag dl hd]

/-- On a diagonal Hamiltonian the loop body fixes `H2` and `U` and records a
zero diagnostic. -/
lemma flowIter_of_diag {n : ℕ} {H : Mat n} (dl : ℚ)
    (hd : ∀ i j, i ≠ j → H i j = 0) (U : Mat n) (v : Option ℚ) :
    flowIter dl ⟨H, U, v⟩ = ⟨H, U, some 0⟩ := by
  unfold flowIter
  simp [flowStep_of_diag dl hd, eta_of_diag hd, vmaxOf_of_diag hd]

/-- After at least one iteration on a diagonal Hamiltonian the loop state is
the input Hamiltonian, the identity unitary and a zero diagnostic. -/
lemma flowIter_iterate_of_diag {n : ℕ} {H : Mat n} (dl : ℚ)
    (hd : ∀ i j, i ≠ j → H i j = 0) (q : ℕ) :
    (flowIter dl)^[q + 1] (flowInit H) = ⟨H, 1, some 0⟩ := by
  induction q with
  | zero => exact flowIter_of_diag dl hd 1 none
  | succ q ih =>
    rw [Function.iterate_succ_apply', ih]
    exact flowIter_of_diag dl hd 1 (some 0)

/-- Writing the freshly allocated last cell of an extended heap keeps the
heap an extension of the original one. -/
lemma set_concat {α : Type} (l : List α) (a b : α) :
    (l ++ [a]).set l.length b = l ++ [b] := by
  induction l with
  | nil => rfl
  | cons x xs ih => simp [List.set, ih]

/-- One heap step at the fresh address only advances the fresh cell. -/
lemma stepOnHeap_concat {n : ℕ} (dl : ℚ) (hp : ArrayHeap n) (M : Mat n) :
    stepOnHeap dl hp.length (hp ++ [M]) = hp ++ [flowStep dl M] := by
  have hget : (hp ++ [M])[hp.length]? = some M := by simp
  unfold stepOnHeap
  rw [hget]
  exact set_concat hp M (flowStep dl M)

/-- Iterating the heap step at the fresh address leaves the original heap
intact and flows only the fresh cell. -/
lemma stepOnHeap_iterate {n : ℕ} (dl : ℚ) (hp : ArrayHeap n) (M : Mat n)
    (q : ℕ) :
    (stepOnHeap dl hp.length)^[q] (hp ++ [M]) = hp ++ [flowH dl q M] := by
  induction q with
  | zero => rfl
  | succ q ih =>
    rw [Function.iterate_succ_apply', ih, stepOnHeap_concat, ← flowH_succ]

/-- C1: each iteration of `flow` performs exactly one forward-Euler step: it
decomposes the current Hamiltonian into diagonal part and off-diagonal
remainder, computes the generator, updates `U` to `(I + dl·η)·U` and `H2` to
`H2 + dl·(ηH2 − H2η)` (the spec-side step functions `specStepH`, `specStepU`
and `specGenerator` are written from the spec's formulas), and `U` is
initialized to the identity before the first step. -/
theorem c1_forward_euler_step {n : ℕ} (dl : ℚ) (s : FlowState n) (H : Mat n) :
    (flowIter dl s).H2 = specStepH dl s.H2 ∧
      (flowIter dl s).U = specStepU dl s.H2 s.U ∧
      eta s.H2 = specGenerator s.H2 ∧ (flowInit H).U = 1 :=
  ⟨rfl, rfl, rfl, rfl⟩

/-- C2 (counterexample to the claim as stated): even for a diagonal input
Hamiltonian, `flow` with `steps = 0` does not return the input and the
identity — it raises (`Vmax` is never assigned), modelled as `none`. -/
theorem c2_steps_zero_on_diagonal_cex :
    flow (Matrix.diagonal ![(3:ℚ), 5]) 1 0 = none := rfl

/-- C2 (amended): for every diagonal input Hamiltonian the generator is the
zero array at every step, and for every positive number of steps `flow`
returns the input Hamiltonian, a zero diagnostic and the identity unitary. -/
theorem c2_diagonal_fixed_point {n : ℕ} (H : Mat n) (dl : ℚ) (steps : ℕ)
    (hd : ∀ i j, i ≠ j → H i j = 0) (hs : 1 ≤ steps) :
    (∀ q : ℕ, eta (flowH dl q H) = 0) ∧ flow H dl steps = some (H, 0, 1) := by
  refine ⟨fun q => by rw [flowH_of_diag dl hd, eta_of_diag hd], ?_⟩
  cases steps with
  | zero => exact absurd hs (by simp)
  | succ q =>
    unfold flow
    rw [flowIter_iterate_of_diag dl hd q]
    rfl

/-- Witness for C2 (amended) at the diagonal matrix `diag(3, 5)` with
`dl = 1` and one step. -/
theorem c2_diagonal_fixed_point_witness :
    ((∀ i j : Fin 2, i ≠ j → Matrix.diagonal ![(3:ℚ), 5] i j = 0) ∧ 1 ≤ 1) ∧
      ((∀ q : ℕ, eta (flowH 1 q (Matrix.diagonal ![(3:ℚ), 5])) = 0) ∧
        flow (Matrix.diagonal ![(3:ℚ), 5]) 1 1 =
          some (Matrix.diagonal ![(3:ℚ), 5], 0, 1)) :=
  ⟨⟨fun _ _ h => Matrix.diagonal_apply_ne _ h, le_rfl⟩,
    c2_diagonal_fixed_point _ 1 1 (fun _ _ h => Matrix.diagonal_apply_ne _ h)
      le_rfl⟩

/-- C3: the claim says `steps = 0` returns normally with the input
Hamiltonian and the identity; in the code the loop body never runs, the
local `Vmax` is never assigned, and `return H2, Vmax, U` raises
`UnboundLocalError` (modelled as `none`) — a slip in the code, since the
intended boundary behaviour is the one stated. -/
theorem c3_steps_zero_raises {n : ℕ} (H : Mat n) (dl : ℚ) :
    flow H dl 0 = none := rfl

/-- C4 (counterexample to the claim as stated): with `dl = 1` the
off-diagonal norm grows from one loop iteration to the next (1 then 3), yet
`flow` performs no detection and silently returns its usual triple — the
same constructor and shape as any converging run, with only the lagged
`Vmax` value as output and no convergence-failure flag. -/
theorem c4_silent_divergence_cex :
    vmaxOf (flowH 1 0 !![(1:ℚ), 1; 1, -1]) <
      vmaxOf (flowH 1 1 !![(1:ℚ), 1; 1, -1]) ∧
      flow !![(1:ℚ), 1; 1, -1] 1 2 =
        some (flowH 1 2 !![(1:ℚ), 1; 1, -1],
          vmaxOf (flowH 1 1 !![(1:ℚ), 1; 1, -1]),
          ((flowIter 1)^[2] (flowInit !![(1:ℚ), 1; 1, -1])).U) := by
  constructor
  · have he : eta !![(1:ℚ), 1; 1, -1] = !![0, 2; -2, 0] := by
      ext i j
      fin_cases i <;> fin_cases j <;>
        norm_num [eta, diagPart, offdiagPart, Matrix.mul_apply,
          Fin.sum_univ_two, Matrix.diagonal_apply]
    have hstep : flowH 1 1 !![(1:ℚ), 1; 1, -1] = !![5, -3; -3, -5] := by
      rw [show flowH 1 1 !![(1:ℚ), 1; 1, -1] =
        flowStep 1 !![(1:ℚ), 1; 1, -1] from rfl, flowStep, he]
      ext i j
      fin_cases i <;> fin_cases j <;>
        norm_num [Matrix.mul_apply, Fin.sum_univ_two]
    have hv0 : vmaxOf (flowH 1 0 !![(1:ℚ), 1; 1, -1]) = 1 := by
      rw [show flowH 1 0 !![(1:ℚ), 1; 1, -1] = !![(1:ℚ), 1; 1, -1] from rfl]
      refine vmaxOf_eq _ 1 0 1 (by norm_num) ?_ ?_
      · norm_num [offdiagPart_apply]
      · intro a b
        fin_cases a <;> fin_cases b <;> norm_num [offdiagPart_apply]
    have hv1 : vmaxOf (flowH 1 1 !![(1:ℚ), 1; 1, -1]) = 3 := by
      rw [hstep]
      refine vmaxOf_eq _ 3 0 1 (by norm_num) ?_ ?_
      · norm_num [offdiagPart_apply]
      · intro a b
        fin_cases a <;> fin_cases b <;> norm_num [offdiagPart_apply]
    rw [hv0, hv1]
    norm_num
  · exact flow_succ _ 1 1

/-- C4 (amended): `flow` performs no divergence detection at all — for every
positive step budget it runs all its iterations and returns normally (the
lagged `Vmax` being the only diagnostic), even when the off-diagonal norm is
increasing over consecutive steps. -/
theorem c4_no_detection_always_returns {n : ℕ} (H : Mat n) (dl : ℚ)
    (steps : ℕ) (hs : 1 ≤ steps) : (flow H dl steps).isSome = true := by
  cases steps with
  | zero => exact absurd hs (by simp)
  | succ q => rw [flow_succ]; rfl

/-- Witness for C4 (amended) at the diverging input of the counterexample. -/
theorem c4_no_detection_always_returns_witness :
    (1:ℕ) ≤ 2 ∧ (flow !![(1:ℚ), 1; 1, -1] 1 2).isSome = true :=
  ⟨by norm_num, c4_no_detection_always_returns !![(1:ℚ), 1; 1, -1] 1 2
    (by norm_num)⟩

/-- C5: symmetry is an invariant of the flow: for every symmetric input
Hamiltonian the flowing Hamiltonian stays symmetric after every single flow
step (and its shape is fixed at `n × n` by the type, never resized). -/
theorem c5_symmetry_invariant {n : ℕ} (dl : ℚ) (H : Mat n) (h : Hᵀ = H) :
    ∀ q : ℕ, (flowH dl q H)ᵀ = flowH dl q H :=
  flowH_transpose dl h

/-- Witness for C5 at a concrete symmetric matrix, one step, `dl = 1`. -/
theorem c5_symmetry_invariant_witness :
    (!![(1:ℚ), 2; 2, 5])ᵀ = !![(1:ℚ), 2; 2, 5] ∧
      (flowH 1 1 !![(1:ℚ), 2; 2, 5])ᵀ = flowH 1 1 !![(1:ℚ), 2; 2, 5] :=
  have hs : (!![(1:ℚ), 2; 2, 5])ᵀ = !![(1:ℚ), 2; 2, 5] := by
    ext i j
    fin_cases i <;> fin_cases j <;> rfl
  ⟨hs, c5_symmetry_invariant 1 _ hs 1⟩

/-- C6: for every symmetric square Hamiltonian the generator computed at
each step has the same (typed) shape and is anti-symmetric under transpose,
and the generator used for step `q + 1` is recomputed from the state after
`q` steps, not carried across steps. -/
theorem c6_generator_antisymmetric {n : ℕ} (dl : ℚ) (H : Mat n)
    (h : Hᵀ = H) :
    ∀ q : ℕ, (eta (flowH dl q H))ᵀ = -eta (flowH dl q H) ∧
      flowH dl (q + 1) H = flowStep dl (flowH dl q H) :=
  fun q => ⟨eta_transpose (flowH_transpose dl h q), flowH_succ dl q H⟩

/-- Witness for C6 at a concrete symmetric matrix, step 1, `dl = 1`. -/
theorem c6_generator_antisymmetric_witness :
    (!![(2:ℚ), 1; 1, -2])ᵀ = !![(2:ℚ), 1; 1, -2] ∧
      ((eta (flowH 1 1 !![(2:ℚ), 1; 1, -2]))ᵀ =
          -eta (flowH 1 1 !![(2:ℚ), 1; 1, -2]) ∧
        flowH 1 2 !![(2:ℚ), 1; 1, -2] =
          flowStep 1 (flowH 1 1 !![(2:ℚ), 1; 1, -2])) :=
  have hs : (!![(2:ℚ), 1; 1, -2])ᵀ = !![(2:ℚ), 1; 1, -2] := by
    ext i j
    fin_cases i <;> fin_cases j <;> rfl
  ⟨hs, c6_generator_antisymmetric 1 _ hs 1⟩

/-- C7: `flow` does not mutate its caller's Hamiltonian: it works on a deep
copy allocated in a fresh heap cell, and every cell of the caller's heap —
in particular the argument array at `r` — is unchanged after the call. -/
theorem c7_caller_array_unchanged {n : ℕ} (dl : ℚ) (steps : ℕ)
    (hp : ArrayHeap n) (r i : ℕ) (hi : i < hp.length) :
    (flowOnHeap dl steps hp r)[i]? = hp[i]? := by
  unfold flowOnHeap
  cases hr : hp[r]? with
  | none => rfl
  | some H =>
    show ((stepOnHeap dl hp.length)^[steps] (hp ++ [H]))[i]? = hp[i]?
    rw [stepOnHeap_iterate]
    exact List.getElem?_append_left hi

/-- Witness for C7: a one-array heap, two flow steps, `dl = 1`. -/
theorem c7_caller_array_unchanged_witness :
    0 < [!![(1:ℚ), 1; 1, -1]].length ∧
      (flowOnHeap 1 2 [!![(1:ℚ), 1; 1, -1]] 0)[0]? =
        [!![(1:ℚ), 1; 1, -1]][0]? :=
  ⟨by norm_num, c7_caller_array_unchanged 1 2 _ 0 0 (by norm_num)⟩

/-- C9: the trace of the flowing Hamiltonian is conserved in exact
arithmetic: every flow step adds a scalar multiple of a commutator, whose
trace vanishes, so after any number of steps the sum of diagonal entries
equals the trace of the input. -/
theorem c9_trace_conserved {n : ℕ} (dl : ℚ) (q : ℕ) (H : Mat n) :
    (flowH dl q H).trace = H.trace := by
  induction q with
  | zero => rfl
  | succ q ih => rw [flowH_succ, trace_flowStep, ih]

/-- C10: for a positive number of steps, the diagnostic `Vmax` returned by
`flow` is the maximum absolute off-diagonal entry of the Hamiltonian at the
start of the final iteration — the state after `steps − 1` updates — not of
the returned flowed Hamiltonian, so it lags the returned state by one
step. -/
theorem c10_vmax_lags {n : ℕ} (H : Mat n) (dl : ℚ) (steps : ℕ)
    (hs : 1 ≤ steps) :
    flow H dl steps = some (flowH dl steps H,
      vmaxOf (flowH dl (steps - 1) H),
      ((flowIter dl)^[steps] (flowInit H)).U) := by
  cases steps with
  | zero => exact absurd hs (by simp)
  | succ q => simpa using flow_succ H dl q

/-- Witness for C10 at a concrete matrix, two steps, `dl = 1`. -/
theorem c10_vmax_lags_witness :
    (1:ℕ) ≤ 2 ∧ flow !![(0:ℚ), 1; 1, 0] 1 2 =
      some (flowH 1 2 !![(0:ℚ), 1; 1, 0],
        vmaxOf (flowH 1 (2 - 1) !![(0:ℚ), 1; 1, 0]),
        ((flowIter 1)^[2] (flowInit !![(0:ℚ), 1; 1, 0])).U) :=
  ⟨by norm_num, c10_vmax_lags !![(0:ℚ), 1; 1, 0] 1 2 (by norm_num)⟩
